import Mathlib

/-
Verification of the FASTQ quality-encoding detector and the FastQC report
parser in bipy (src/bipy/toolbox/fastqc.py).

Shallow embedding conventions used throughout this file:
  * Text is modelled as `List Char`.  A file that is read line by line is
    modelled by `pythonLines`, which reproduces the way Python file
    iteration splits a text stream: each yielded line keeps its trailing
    newline character, a final line without a terminator is yielded as-is,
    and the empty stream yields no lines.  (Universal-newline translation
    of CR+LF to LF is not modelled; all inputs in this file use LF only.)
  * A file that may be absent is modelled as `Option (List Char)`
    (`none` = the file does not exist on disk).
  * Python exceptions are modelled with `Except Unit`, where
    `Except.error ()` marks the raised exception (an UnboundLocalError in
    `detect_fastq_format`, a ValueError in `get_fastqc_summary`).
  * Dict iteration order is modelled as insertion order, which is what
    Python 3.7+ guarantees for `list(_FASTQ_RANGES.keys())`.
  * Python `i % 4 is 3` for small ints behaves as `i % 4 == 3` in CPython
    (small-integer interning); it is embedded as equality.
-/

/- ===== text model ===== -/

/-- Accumulating helper for `pythonLines`; `acc` holds the current
(unterminated) line in reverse order. -/
def pythonLinesAux : List Char → List Char → List (List Char)
  | [], acc => if acc.isEmpty then [] else [acc.reverse]
  | c :: cs, acc =>
      if c = '\n' then (c :: acc).reverse :: pythonLinesAux cs []
      else pythonLinesAux cs (c :: acc)

/-- The sequence of lines Python file iteration yields for a given stream
content: lines keep their trailing newline; a last line with no newline is
yielded without one; the empty content yields no lines. -/
def pythonLines (content : List Char) : List (List Char) :=
  pythonLinesAux content []

/-- Python `line.rstrip("\r\n")`: drop every trailing CR or LF character. -/
def rstripCRLF (l : List Char) : List Char :=
  (l.reverse.dropWhile (fun c => c = '\r' || c = '\n')).reverse

/-- Python `str.split(sep)` for a one-character separator: splits on every
occurrence, keeping empty fields; the empty string splits to `[""]`. -/
def pySplit (sep : Char) : List Char → List (List Char)
  | [] => [[]]
  | c :: cs =>
      if c = sep then [] :: pySplit sep cs
      else
        match pySplit sep cs with
        | f :: r => (c :: f) :: r
        | [] => [[c]]

/- ===== EncodingDetector: detect_fastq_format ===== -/

/-- The `_FASTQ_RANGES` table of fastqc.py, in source (insertion) order:
scheme name with its inclusive [min_ordinal, max_ordinal] range. -/
def fastqRanges : List (String × Nat × Nat) :=
  [("sanger", 33, 73),
   ("solexa", 59, 104),
   ("illumina_1.3+", 64, 104),
   ("illumina_1.5+", 66, 104),
   ("illumina_1.8+", 33, 74)]

/-- `kept = list(_FASTQ_RANGES.keys())`: the initial candidate list. -/
def fastqKeys : List String := fastqRanges.map Prod.fst

/-- The per-scheme test of lines 42-43 of fastqc.py:
`_FASTQ_RANGES[form][0] > ord(c) or _FASTQ_RANGES[form][1] < ord(c)`.
The lookup default is never used: `form` is always a key of the table. -/
def outOfRange (c : Char) (form : String) : Bool :=
  let r := (fastqRanges.lookup form).getD (0, 0)
  decide (c.toNat < r.1) || decide (r.2 < c.toNat)

/-- The inner loop `for form in formats: if <out of range>: kept.remove(form)`
of fastqc.py, where `formats` aliases `kept` (line 38 binds the same list
object), so the loop removes elements from the very list it is iterating.
A CPython list iterator holds a bare index into the (mutated) list, and
`kept.remove(form)` deletes the first occurrence of `form`, which sits at
the index just yielded because the candidate names are pairwise distinct.
Deleting at the yielded index shifts the rest left, so the element right
after a removed one is never examined in this pass: the embedding keeps it
in `done` untouched.  (Classic remove-while-iterating skip behaviour.) -/
def removeLoop (bad : String → Bool) : List String → List String → List String
  | done, [] => done
  | done, form :: rest =>
      if bad form then
        match rest with
        | [] => done
        | x :: xs => removeLoop bad (done ++ [x]) xs
      else removeLoop bad (done ++ [form]) rest

/-- The character loop of lines 37-44 of fastqc.py over one quality line:
for each character, first the short-circuit `if len(formats) == 1: return
formats`, then one removal pass.  `Sum.inl` is the early return,
`Sum.inr` the updated candidate list when the line is exhausted. -/
def lineLoop : List String → List Char → Sum (List String) (List String)
  | kept, [] => Sum.inr kept
  | kept, c :: cs =>
      if kept.length = 1 then Sum.inl kept
      else lineLoop (removeLoop (outOfRange c) [] kept) cs

/-- The `return formats` at line 46 of fastqc.py: `formats` is only ever
bound inside the character loop (and aliases `kept`), so the return yields
the current candidate list when at least one character was scanned and
raises UnboundLocalError otherwise. -/
def pyReturn (kept : List String) (bound : Bool) : Except Unit (List String) :=
  if bound then Except.ok kept else Except.error ()

/-- The line loop of `detect_fastq_format` (lines 30-46 of fastqc.py).
Arguments mirror the Python state: remaining lines, the `enumerate` index
`i`, `records_read`, the `kept` list, whether `formats` has been bound,
and (as instrumentation of the scan) the 0-indexed positions of the lines
whose characters have been examined.  Returns the functions result
together with that list of examined quality-line positions. -/
def detectAux (maxRecords : Nat) :
    List (List Char) → Nat → Nat → List String → Bool → List Nat →
    Except Unit (List String) × List Nat
  | [], _, _, kept, bound, scanned => (pyReturn kept bound, scanned)
  | line :: rest, i, recordsRead, kept, bound, scanned =>
      if maxRecords ≤ recordsRead then (pyReturn kept bound, scanned)
      else if i % 4 = 3 then
        match lineLoop kept line with
        | Sum.inl fs => (Except.ok fs, scanned ++ [i])
        | Sum.inr kept2 =>
            detectAux maxRecords rest (i + 1) (recordsRead + 1) kept2
              (bound || !line.isEmpty) (scanned ++ [i])
      else detectAux maxRecords rest (i + 1) recordsRead kept bound scanned

/-- Full run of `detect_fastq_format` on a file content, returning the
result together with the examined quality-line positions. -/
def detectRun (content : List Char) (maxRecords : Nat) :
    Except Unit (List String) × List Nat :=
  detectAux maxRecords (pythonLines content) 0 0 fastqKeys false []

/-- `detect_fastq_format(in_file, MAX_RECORDS)` of fastqc.py, on the file
content; `Except.error ()` models the UnboundLocalError raised by
`return formats` when no quality character was ever scanned. -/
def detect_fastq_format (content : List Char) (maxRecords : Nat) :
    Except Unit (List String) :=
  (detectRun content maxRecords).1

/-- The 0-indexed positions of the lines whose characters
`detect_fastq_format` examines during its scan. -/
def scannedQualityLines (content : List Char) (maxRecords : Nat) : List Nat :=
  (detectRun content maxRecords).2

/-- Specification-side definition, following the claim wording: the
registry schemes whose [min_ordinal, max_ordinal] range contains the
ordinal of every character of the given list. -/
def consistentSchemes (chars : List Char) : List String :=
  (fastqRanges.filter
    (fun r => chars.all (fun c => decide (r.2.1 ≤ c.toNat) && decide (c.toNat ≤ r.2.2)))).map
    Prod.fst

/- concrete FASTQ inputs used to exercise the detector -/

/-- A FASTQ record whose quality line contains a space (ordinal 32), which
lies outside every registry range. -/
def fileAllEliminated : List Char := "@r\nAA\n+\n \n".data

/-- A FASTQ record whose quality line content is the single character I
(ordinal 73), which lies inside every registry range. -/
def fileAllCompatible : List Char := "@r\nA\n+\nI\n".data

/-- A FASTQ record whose quality line content is the two characters with
ordinals 59 and 75, jointly compatible with exactly the solexa range. -/
def fileSolexaOnly : List Char := "@r\nGT\n+\n;K\n".data

/- ===== FastQCParser: _fastqc_data_section ===== -/

/-- The end-of-section marker prefix checked at line 161 of fastqc.py. -/
def endMarker : List Char := ">>END".data

/-- The scan loop of `FastQCParser._fastqc_data_section` (lines 157-163 of
fastqc.py): a line starting with the section marker switches the
in-section state on (and is not appended); while in-section, a line
starting with the end marker breaks, every other line is appended with
trailing CR/LF stripped. -/
def sectionScan (marker : List Char) :
    List (List Char) → Bool → List (List Char) → List (List Char)
  | [], _, out => out
  | line :: rest, inSection, out =>
      if marker.isPrefixOf line then sectionScan marker rest true out
      else if inSection then
        (if endMarker.isPrefixOf line then out
         else sectionScan marker rest inSection (out ++ [rstripCRLF line]))
      else sectionScan marker rest inSection out

/-- `FastQCParser._fastqc_data_section(section_name)`: the data file is
`Option`-valued because the method first tests `os.path.exists`; a missing
file yields the empty output list.  The marker is the formatted string
`">>%s" % section_name`. -/
def fastqcDataSection (dataFile : Option (List Char)) (name : List Char) :
    List (List Char) :=
  match dataFile with
  | none => []
  | some content => sectionScan ('>' :: '>' :: name) (pythonLines content) false []

/- ===== FastQCParser: get_fastqc_summary and _splitseq ===== -/

/-- Modelled from the spec: `safe_latex` is imported from
`bipy.toolbox.reporting`, which is not among the sources.  The spec states
that escaping is "a pure function from raw string to escaped string" that
escapes the output formats special characters and has no other effect, so
it is modelled as prefixing a backslash to each LaTeX special character
and leaving every other character unchanged. -/
def safe_latex (s : List Char) : List Char :=
  (s.map (fun c => if c = '&' || c = '%' || c = '#' || c = '_' then ['\\', c] else [c])).flatten

/-- Python dict insertion `d[k] = v` on an order-preserving dict: an
existing key keeps its original position and gets the new value, a new key
is appended. -/
def dictInsert (m : List (List Char × List Char)) (k v : List Char) :
    List (List Char × List Char) :=
  if m.any (fun p => p.1 == k) then
    m.map (fun p => if p.1 == k then (p.1, v) else p)
  else m ++ [(k, v)]

/-- The Basic Statistics loop of `get_fastqc_summary` (lines 130-132 of
fastqc.py): `k, v = [safe_latex(x) for x in stat_line.split("\t")[:2]]`
unpacks exactly two values, so a line without a tab raises a ValueError,
modelled as `Except.error ()`. -/
def statsLoop :
    List (List Char) → List (List Char × List Char) →
    Except Unit (List (List Char × List Char))
  | [], m => Except.ok m
  | line :: rest, m =>
      match ((pySplit '\t' line).take 2).map safe_latex with
      | [k, v] => statsLoop rest (dictInsert m k v)
      | _ => Except.error ()

/-- `FastQCParser._fastqc_data_section("Basic Statistics")[1:]` fed to the
stats loop, starting from the empty dict. -/
def basicStats (dataFile : Option (List Char)) :
    Except Unit (List (List Char × List Char)) :=
  statsLoop ((fastqcDataSection dataFile "Basic Statistics".data).drop 1) []

/-- The chunking loop of `FastQCParser._splitseq` (lines 141-148 of
fastqc.py): `cur` is flushed to `pieces` whenever it has reached
`maxSize` characters before the next character is appended, and is always
flushed once more after the loop. -/
def splitseqLoop (maxSize : Nat) :
    List Char → List (List Char) → List Char → List (List Char)
  | [], pieces, cur => pieces ++ [cur]
  | s :: rest, pieces, cur =>
      if maxSize ≤ cur.length then splitseqLoop maxSize rest (pieces ++ [cur]) [s]
      else splitseqLoop maxSize rest pieces (cur ++ [s])

/-- The list of chunks `_splitseq` builds before joining them. -/
def splitseqPieces (maxSize : Nat) (seq : List Char) : List (List Char) :=
  splitseqLoop maxSize seq [] []

/-- `FastQCParser._splitseq(seq)` with the instance constant
`self._max_seq_size = 45`: `" ".join(pieces)`. -/
def splitseq (seq : List Char) : List Char :=
  List.intercalate [' '] (splitseqPieces 45 seq)

/-- `over_rep[-1][0] = self._splitseq(over_rep[-1][0])`: rewrite field 0
of a record (records are never empty: `str.split` yields at least one
field). -/
def wrapHead : List (List Char) → List (List Char)
  | [] => []
  | f :: rest => splitseq f :: rest

/-- Mutate the last element of a list in place, as the Python statement
`over_rep[-1][0] = ...` does on the just-appended record. -/
def setLast {α : Type} (f : α → α) : List α → List α
  | [] => []
  | [x] => [f x]
  | x :: y :: ys => x :: setLast f (y :: ys)

/-- One iteration of the Overrepresented sequences loop (lines 134-137 of
fastqc.py): escape every tab-field of the line, append the record, then
wrap the first field of the record just appended. -/
def overrepStep (acc : List (List (List Char))) (line : List Char) :
    List (List (List Char)) :=
  setLast wrapHead (acc ++ [(pySplit '\t' line).map safe_latex])

/-- The Overrepresented sequences part of `get_fastqc_summary`, including
the final truncation `over_rep[:self._max_overrep]` with
`self._max_overrep = 20`. -/
def overrepOf (dataFile : Option (List Char)) : List (List (List Char)) :=
  (((fastqcDataSection dataFile "Overrepresented sequences".data).drop 1).foldl
    overrepStep []).take 20

/-- `FastQCParser.get_fastqc_summary()` (lines 128-138 of fastqc.py): the
Basic Statistics loop runs first (and its ValueError propagates), then the
Overrepresented sequences records are built and truncated. -/
def get_fastqc_summary (dataFile : Option (List Char)) :
    Except Unit (List (List Char × List Char) × List (List (List Char))) :=
  match basicStats dataFile with
  | Except.error e => Except.error e
  | Except.ok stats => Except.ok (stats, overrepOf dataFile)

/- ===== FastQCParser: get_fastqc_graphs ===== -/

/-- The fixed `GRAPHS` class constant of `FastQCParser` (lines 106-113 of
fastqc.py).  The relative sizes 1.0 and 0.85 are embedded as rationals. -/
def GRAPHS : List (String × String × Rat) :=
  [("per_base_quality.png", "", 1),
   ("per_base_sequence_content.png", "", 85/100),
   ("per_sequence_gc_content.png", "", 85/100),
   ("kmer_profiles.png", "", 85/100),
   ("duplication_levels.png", "", 85/100),
   ("per_bases_n_content.png", "", 85/100),
   ("per_sequence_quality.png", "", 1),
   ("sequence_length_distribution.png", "", 1)]

/-- POSIX `os.path.join` for two components. -/
def pathJoin (a b : String) : String :=
  if b.startsWith "/" then b
  else if a = "" then b
  else if a.endsWith "/" then a ++ b
  else a ++ "/" ++ b

/-- The loop of `get_fastqc_graphs` (lines 121-126 of fastqc.py) over a
list of graph triples, with the filesystem abstracted as the existence
oracle `px` (`os.path.exists`). -/
def graphsLoop (px : String → Bool) (dir : String) :
    List (String × String × Rat) → List (String × String × Rat)
  | [] => []
  | (f, caption, size) :: rest =>
      if px (pathJoin (pathJoin dir "Images") f) then
        (pathJoin (pathJoin dir "Images") f, caption, size) :: graphsLoop px dir rest
      else graphsLoop px dir rest

/-- `FastQCParser.get_fastqc_graphs()` on base directory `dir`. -/
def get_fastqc_graphs (px : String → Bool) (dir : String) :
    List (String × String × Rat) :=
  graphsLoop px dir GRAPHS

/- ===== specification-side definitions for the parser claims ===== -/

/-- The literal wording of claim C6: the lines strictly between the first
line beginning with the start marker `>>` ++ name and the first subsequent
line beginning with `>>END`, in order, with trailing line terminators
stripped. -/
def claimSectionLiteral (content : List Char) (name : List Char) :
    List (List Char) :=
  let marker := '>' :: '>' :: name
  match (pythonLines content).dropWhile (fun l => !(marker.isPrefixOf l)) with
  | [] => []
  | _ :: rest =>
      (rest.takeWhile (fun l => !(endMarker.isPrefixOf l))).map rstripCRLF

/-- The amended section semantics: after the first line beginning with the
marker `>>` ++ name (prefix match), take the lines up to the first line
that begins with `>>END` but not with the marker (to end of file when
there is none), drop those beginning with the marker themselves, and
strip trailing CR/LF from the rest. -/
def sectionAmendedSpec (content : List Char) (name : List Char) :
    List (List Char) :=
  match (pythonLines content).dropWhile (fun l => !(('>' :: '>' :: name).isPrefixOf l)) with
  | [] => []
  | _ :: rest =>
      ((rest.takeWhile
          (fun l => ('>' :: '>' :: name).isPrefixOf l || !(endMarker.isPrefixOf l))).filter
        (fun l => !(('>' :: '>' :: name).isPrefixOf l))).map rstripCRLF

/-- The non-header lines of the Basic Statistics section of a file. -/
def summaryRows (content : List Char) : List (List Char) :=
  (fastqcDataSection (some content) "Basic Statistics".data).drop 1

/-- Claim-side summary build (wording of C7): escape the first two
tab-fields of each non-header line and insert them into an
encounter-ordered, last-write-wins mapping. -/
def claimSummarySpec (content : List Char) : List (List Char × List Char) :=
  (summaryRows content).foldl
    (fun m line =>
      dictInsert m (safe_latex ((pySplit '\t' line).headD []))
        (safe_latex (((pySplit '\t' line).drop 1).headD [])))
    []

/-- The non-header lines of the Overrepresented sequences section. -/
def overrepRows (dataFile : Option (List Char)) : List (List Char) :=
  (fastqcDataSection dataFile "Overrepresented sequences".data).drop 1

/-- Claim-side record build (wording of C8): escape every tab-field of the
row and wrap the first field into space-joined chunks. -/
def overrepRecordSpec (line : List Char) : List (List Char) :=
  wrapHead ((pySplit '\t' line).map safe_latex)

/- concrete FastQC data files used in the parser claims -/

/-- A data file whose section Foo contains an interior line that itself
begins with the start marker (a longer section name with prefix Foo). -/
def sectionCexFile : List Char := ">>Foo\na\n>>Foo2\nb\n>>END_MODULE\n".data

/-- The synthetic round-trip file of the spec: one Basic Statistics block
with a header row and the row Total Sequences TAB 1000. -/
def summaryRoundTripFile : List Char :=
  ">>Basic Statistics\nMeasure\tValue\nTotal Sequences\t1000\n>>END_MODULE\n".data

/-- A data file whose Basic Statistics section has a data row without any
tab character. -/
def summaryNoTabFile : List Char :=
  ">>Basic Statistics\nMeasure\tValue\nnotab\n>>END_MODULE\n".data

/- ===== helper lemmas ===== -/

/-- Invariants of the `_splitseq` chunking loop: every produced chunk is at
most `m` long and the chunks concatenate to the consumed input. -/
theorem splitseqLoop_spec (m : Nat) (hm : 0 < m) :
    ∀ (rest : List Char) (pieces : List (List Char)) (cur : List Char),
      (∀ p ∈ pieces, p.length ≤ m) → cur.length ≤ m →
      (∀ p ∈ splitseqLoop m rest pieces cur, p.length ≤ m) ∧
        (splitseqLoop m rest pieces cur).flatten = pieces.flatten ++ cur ++ rest := by
  intro rest
  induction rest with
  | nil =>
      intro pieces cur hp hc
      constructor
      · intro p hmem
        have h2 : p ∈ pieces ∨ p = cur := by simpa [splitseqLoop] using hmem
        rcases h2 with h | h
        · exact hp p h
        · exact h ▸ hc
      · show (pieces ++ [cur]).flatten = pieces.flatten ++ cur ++ []
        simp
  | cons s rest ih =>
      intro pieces cur hp hc
      by_cases h : m ≤ cur.length
      · have h2 := ih (pieces ++ [cur]) [s]
          (by
            intro p hmem
            rcases List.mem_append.mp hmem with h3 | h3
            · exact hp p h3
            · simp only [List.mem_singleton] at h3
              exact h3 ▸ hc)
          (by simpa using hm)
        refine ⟨by simpa [splitseqLoop, h] using h2.1, ?_⟩
        have h3 := h2.2
        simp only [splitseqLoop, if_pos h]
        rw [h3]
        simp [List.append_assoc]
      · have hlt : cur.length < m := Nat.lt_of_not_le h
        have h2 := ih pieces (cur ++ [s]) hp (by simp; omega)
        refine ⟨by simpa [splitseqLoop, h] using h2.1, ?_⟩
        have h3 := h2.2
        simp only [splitseqLoop, if_neg h]
        rw [h3]
        simp [List.append_assoc]

/-- Rewriting the last element of `acc ++ [p]` rewrites `p`. -/
theorem setLast_append {α : Type} (f : α → α) :
    ∀ (acc : List α) (p : α), setLast f (acc ++ [p]) = acc ++ [f p] := by
  intro acc p
  induction acc with
  | nil => rfl
  | cons a t ih =>
      cases t with
      | nil => rfl
      | cons b t2 =>
          simp only [List.cons_append] at ih ⊢
          rw [setLast, ih]

/-- One step of the Overrepresented sequences loop appends the processed
record. -/
theorem overrepStep_eq (acc : List (List (List Char))) (line : List Char) :
    overrepStep acc line = acc ++ [overrepRecordSpec line] := by
  unfold overrepStep overrepRecordSpec
  exact setLast_append wrapHead acc _

/-- The Overrepresented sequences loop is a map over the rows. -/
theorem foldl_overrepStep :
    ∀ (rows : List (List Char)) (acc : List (List (List Char))),
      rows.foldl overrepStep acc = acc ++ rows.map overrepRecordSpec := by
  intro rows
  induction rows with
  | nil => intro acc; simp
  | cons line rest ih =>
      intro acc
      rw [List.foldl_cons, overrepStep_eq, ih, List.map_cons]
      simp [List.append_assoc]

/-- The graph-discovery loop is an existence filter followed by a path
rewrite, preserving order. -/
theorem graphsLoop_eq (px : String → Bool) (dir : String) :
    ∀ l : List (String × String × Rat),
      graphsLoop px dir l =
        (l.filter (fun t => px (pathJoin (pathJoin dir "Images") t.1))).map
          (fun t => (pathJoin (pathJoin dir "Images") t.1, t.2.1, t.2.2)) := by
  intro l
  induction l with
  | nil => rfl
  | cons t rest ih =>
      obtain ⟨f, caption, size⟩ := t
      by_cases h : px (pathJoin (pathJoin dir "Images") f)
      · simp [graphsLoop, h, ih, List.filter_cons]
      · simp [graphsLoop, h, ih, List.filter_cons]

/-- In-section phase of the section scan: take lines until the first line
that begins with `>>END` but not with the marker, drop marker lines, strip
the rest. -/
theorem sectionScan_true (marker : List Char) :
    ∀ (ls : List (List Char)) (out : List (List Char)),
      sectionScan marker ls true out =
        out ++
          ((ls.takeWhile (fun l => marker.isPrefixOf l || !(endMarker.isPrefixOf l))).filter
            (fun l => !(marker.isPrefixOf l))).map rstripCRLF := by
  intro ls
  induction ls with
  | nil => intro out; simp [sectionScan]
  | cons line rest ih =>
      intro out
      by_cases hm : marker.isPrefixOf line
      · simp [sectionScan, hm, ih, List.takeWhile_cons, List.filter_cons]
      · by_cases he : endMarker.isPrefixOf line
        · simp [sectionScan, hm, he, List.takeWhile_cons]
        · simp [sectionScan, hm, he, ih, List.takeWhile_cons, List.filter_cons,
            List.append_assoc]

/-- Searching phase of the section scan: everything up to and including
the first marker line is skipped, after which the in-section phase runs. -/
theorem sectionScan_false (marker : List Char) :
    ∀ (ls : List (List Char)) (out : List (List Char)),
      sectionScan marker ls false out =
        (match ls.dropWhile (fun l => !(marker.isPrefixOf l)) with
         | [] => out
         | _ :: rest => sectionScan marker rest true out) := by
  intro ls
  induction ls with
  | nil => intro out; simp [sectionScan]
  | cons line rest ih =>
      intro out
      by_cases hm : marker.isPrefixOf line
      · simp [sectionScan, hm, List.dropWhile_cons]
      · simp [sectionScan, hm, ih, List.dropWhile_cons]

/-- Under the hypothesis that every row has at least two tab-fields, the
Basic Statistics loop succeeds and is the dict-insert fold of the escaped
first two fields. -/
theorem statsLoop_ok :
    ∀ (rows : List (List Char)) (m : List (List Char × List Char)),
      (∀ line ∈ rows, 2 ≤ (pySplit '\t' line).length) →
      statsLoop rows m =
        Except.ok
          (rows.foldl
            (fun m line =>
              dictInsert m (safe_latex ((pySplit '\t' line).headD []))
                (safe_latex (((pySplit '\t' line).drop 1).headD [])))
            m) := by
  intro rows
  induction rows with
  | nil => intro m h; rfl
  | cons line rest ih =>
      intro m h
      have h2 : 2 ≤ (pySplit '\t' line).length := h line (List.mem_cons_self line rest)
      rcases hsp : pySplit '\t' line with _ | ⟨a, _ | ⟨b, t⟩⟩
      · rw [hsp] at h2; simp at h2
      · rw [hsp] at h2; simp at h2
      · have hrest : ∀ l ∈ rest, 2 ≤ (pySplit '\t' l).length :=
          fun l hl => h l (List.mem_cons_of_mem line hl)
        simp only [statsLoop, hsp, List.take, List.map_cons, List.map_nil,
          List.foldl_cons, List.headD, List.drop, ih _ hrest]

/-- Every position recorded by the detector scan either was already in the
accumulator or is a quality-line position within the remaining lines. -/
theorem detectAux_scanned_mem (m : Nat) :
    ∀ (lines : List (List Char)) (i rr : Nat) (kept : List String) (bound : Bool)
      (scanned : List Nat) (j : Nat),
      j ∈ (detectAux m lines i rr kept bound scanned).2 →
      j ∈ scanned ∨ (j % 4 = 3 ∧ i ≤ j ∧ j < i + lines.length) := by
  intro lines
  induction lines with
  | nil =>
      intro i rr kept bound scanned j hj
      exact Or.inl hj
  | cons line rest ih =>
      intro i rr kept bound scanned j hj
      simp only [detectAux] at hj
      by_cases h1 : m ≤ rr
      · rw [if_pos h1] at hj
        exact Or.inl hj
      rw [if_neg h1] at hj
      by_cases h2 : i % 4 = 3
      · rw [if_pos h2] at hj
        cases hl : lineLoop kept line with
        | inl fs =>
            rw [hl] at hj
            rcases List.mem_append.mp hj with h | h
            · exact Or.inl h
            · have hji : j = i := by simpa using h
              subst hji
              exact Or.inr ⟨h2, le_refl j, by simp only [List.length_cons]; omega⟩
        | inr kept2 =>
            rw [hl] at hj
            rcases ih (i + 1) (rr + 1) kept2 (bound || !line.isEmpty)
                (scanned ++ [i]) j hj with h | h
            · rcases List.mem_append.mp h with h3 | h3
              · exact Or.inl h3
              · have hji : j = i := by simpa using h3
                subst hji
                exact Or.inr ⟨h2, le_refl j, by simp only [List.length_cons]; omega⟩
            · obtain ⟨ha, hb, hc⟩ := h
              exact Or.inr ⟨ha, by omega, by simp only [List.length_cons]; omega⟩
      · rw [if_neg h2] at hj
        rcases ih (i + 1) rr kept bound scanned j hj with h | h
        · exact Or.inl h
        · obtain ⟨ha, hb, hc⟩ := h
          exact Or.inr ⟨ha, by omega, by simp only [List.length_cons]; omega⟩

/-- The detector scan examines at most `m - rr` further quality lines. -/
theorem detectAux_scanned_len (m : Nat) :
    ∀ (lines : List (List Char)) (i rr : Nat) (kept : List String) (bound : Bool)
      (scanned : List Nat),
      (detectAux m lines i rr kept bound scanned).2.length ≤
        scanned.length + (m - rr) := by
  intro lines
  induction lines with
  | nil =>
      intro i rr kept bound scanned
      simp [detectAux]
  | cons line rest ih =>
      intro i rr kept bound scanned
      simp only [detectAux]
      by_cases h1 : m ≤ rr
      · rw [if_pos h1]
        simp
      rw [if_neg h1]
      by_cases h2 : i % 4 = 3
      · rw [if_pos h2]
        split
        · simp only [List.length_append, List.length_cons, List.length_nil]
          omega
        · rename_i kept2 hl
          have h3 := ih (i + 1) (rr + 1) kept2 (bound || !line.isEmpty)
            (scanned ++ [i])
          simp only [List.length_append, List.length_cons, List.length_nil] at h3
          omega
      · rw [if_neg h2]
        exact ih (i + 1) rr kept bound scanned

/- ===== claims ===== -/

/-- Claim C1 is violated by the code: for the FASTQ input whose single
quality line holds a space (ordinal 32, outside every registry range, so
the scanned characters eliminate all five schemes), `detect_fastq_format`
returns the ordinary success value `["illumina_1.5+"]`: it has no
undetermined outcome at all, because the remove-while-iterating bug never
lets the candidate list reach zero and the length-one short circuit turns
an unrepresentable encoding into a spurious singleton. -/
theorem fastqc_c1 :
    consistentSchemes [' '] = [] ∧
      detect_fastq_format fileAllEliminated 1000000 =
        Except.ok ["illumina_1.5+"] :=
  ⟨rfl, rfl⟩

/-- Claim C2 is violated by the code: the only quality character of
`fileAllCompatible` is I (ordinal 73), consistent with all five registry
schemes, yet `detect_fastq_format` returns only two of them, because the
trailing newline of the quality line is also scanned (eliminating schemes)
and because removal during iteration skips elements. -/
theorem fastqc_c2 :
    detect_fastq_format fileAllCompatible 1000000 =
        Except.ok ["solexa", "illumina_1.5+"] ∧
      consistentSchemes ['I'] =
        ["sanger", "solexa", "illumina_1.3+", "illumina_1.5+", "illumina_1.8+"] ∧
      (["solexa", "illumina_1.5+"] : List String) ≠
        ["sanger", "solexa", "illumina_1.3+", "illumina_1.5+", "illumina_1.8+"] :=
  ⟨rfl, rfl, by decide⟩

/-- Claim C3 is violated by the code: the quality characters of
`fileSolexaOnly` (ordinals 59 and 75) are compatible with exactly the
solexa scheme, yet `detect_fastq_format` returns `["illumina_1.5+"]`; the
remove-while-iterating bug skips schemes that should have been removed,
so the set that finally narrows to one holds the wrong scheme. -/
theorem fastqc_c3 :
    consistentSchemes [';', 'K'] = ["solexa"] ∧
      detect_fastq_format fileSolexaOnly 1000000 =
        Except.ok ["illumina_1.5+"] :=
  ⟨rfl, rfl⟩

/-- Claim C4 is violated by the code: on the empty file (no lines, hence
no quality line and no scanned character) `return formats` references the
never-bound loop variable `formats` and raises UnboundLocalError, modelled
as `Except.error ()`, instead of returning a value. -/
theorem fastqc_c4 : detect_fastq_format [] 1000000 = Except.error () := rfl

/-- Claim C5: the detector examines the characters of quality lines only
(0-indexed file positions congruent to 3 modulo 4, all within the file),
and of at most `maxRecords` of them; its scanning work is thereby bounded
by the record cap and the end of file. -/
theorem fastqc_c5 (content : List Char) (maxRecords : Nat) :
    (∀ j ∈ scannedQualityLines content maxRecords,
        j % 4 = 3 ∧ j < (pythonLines content).length) ∧
      (scannedQualityLines content maxRecords).length ≤ maxRecords := by
  constructor
  · intro j hj
    rcases detectAux_scanned_mem maxRecords (pythonLines content) 0 0 fastqKeys
        false [] j hj with h | h
    · simp at h
    · exact ⟨h.1, by have := h.2.2; omega⟩
  · have h := detectAux_scanned_len maxRecords (pythonLines content) 0 0
      fastqKeys false []
    simpa using h

/-- Claim C6, amended: a missing data file, or a file with no line
beginning with `>>` ++ name, yields the empty section; otherwise the
section consists of the lines after the first line beginning with
`>>` ++ name and before the first subsequent line beginning with `>>END`
(but not with `>>` ++ name; end of file if there is none), lines that
themselves begin with `>>` ++ name being omitted, each with trailing
CR/LF stripped. -/
theorem fastqc_c6 :
    (∀ name : List Char, fastqcDataSection none name = []) ∧
      ∀ (content name : List Char),
        fastqcDataSection (some content) name = sectionAmendedSpec content name := by
  constructor
  · intro name; rfl
  · intro content name
    show sectionScan ('>' :: '>' :: name) (pythonLines content) false [] = _
    rw [sectionScan_false]
    unfold sectionAmendedSpec
    cases h : (pythonLines content).dropWhile
        (fun l => !(('>' :: '>' :: name).isPrefixOf l)) with
    | nil => simp [h]
    | cons x rest =>
        simpa using sectionScan_true ('>' :: '>' :: name) rest []

/-- Counterexample to claim C6 as stated: in `sectionCexFile` the interior
line `>>Foo2` lies strictly between the `>>Foo` start marker and the first
subsequent `>>END` line, yet `_fastqc_data_section` omits it, because a
line beginning with the marker toggles the in-section state instead of
being appended. -/
theorem fastqc_c6_counterexample :
    fastqcDataSection (some sectionCexFile) "Foo".data = ["a".data, "b".data] ∧
      claimSectionLiteral sectionCexFile "Foo".data =
        ["a".data, ">>Foo2".data, "b".data] ∧
      fastqcDataSection (some sectionCexFile) "Foo".data ≠
        claimSectionLiteral sectionCexFile "Foo".data :=
  ⟨rfl, rfl, by decide⟩

/-- Claim C7, amended: provided every non-header Basic Statistics line has
at least one tab (two or more tab-fields), `get_fastqc_summary` drops the
header line, splits each remaining line on tabs, escapes the first two
fields and inserts them into the encounter-ordered, last-write-wins
summary mapping.  (A line without a tab instead raises ValueError, see the
counterexample.) -/
theorem fastqc_c7 (content : List Char)
    (h : ∀ line ∈ summaryRows content, 2 ≤ (pySplit '\t' line).length) :
    basicStats (some content) = Except.ok (claimSummarySpec content) ∧
      get_fastqc_summary (some content) =
        Except.ok (claimSummarySpec content, overrepOf (some content)) := by
  have hb : basicStats (some content) = Except.ok (claimSummarySpec content) :=
    statsLoop_ok _ [] h
  refine ⟨hb, ?_⟩
  unfold get_fastqc_summary
  rw [hb]

/-- Witness for the amended claim C7, on the synthetic round-trip file of
the spec: the single data row Total Sequences TAB 1000 yields exactly the
summary mapping from Total Sequences to 1000 (escaping leaves both
unchanged). -/
theorem fastqc_c7_witness :
    (∀ line ∈ summaryRows summaryRoundTripFile, 2 ≤ (pySplit '\t' line).length) ∧
      get_fastqc_summary (some summaryRoundTripFile) =
        Except.ok ([("Total Sequences".data, "1000".data)], []) := by
  refine ⟨by decide, ?_⟩
  have h := (fastqc_c7 summaryRoundTripFile (by decide)).2
  exact h.trans rfl

/-- Counterexample to claim C7 as stated: on a data file whose Basic
Statistics section holds a row without any tab, the two-way unpacking
`k, v = ...` raises ValueError (the split yields a single component), so
extraction does not produce a summary mapping for every file. -/
theorem fastqc_c7_counterexample :
    get_fastqc_summary (some summaryNoTabFile) = Except.error () := rfl

/-- Claim C8: the Overrepresented sequences output is exactly the first
twenty processed rows in order (every field tab-split and escaped, the
first field wrapped into space-joined chunks, the cap applied after
wrapping), its length is min(N, 20) for N data rows, and every chunk the
wrapper produces is at most 45 characters long. -/
theorem fastqc_c8 (dataFile : Option (List Char)) :
    overrepOf dataFile = ((overrepRows dataFile).map overrepRecordSpec).take 20 ∧
      (overrepOf dataFile).length = min (overrepRows dataFile).length 20 ∧
      ∀ seq : List Char, ∀ p ∈ splitseqPieces 45 seq, p.length ≤ 45 := by
  have he : overrepOf dataFile =
      ((overrepRows dataFile).map overrepRecordSpec).take 20 := by
    unfold overrepOf overrepRows
    rw [foldl_overrepStep]
    simp
  refine ⟨he, ?_, ?_⟩
  · rw [he]
    simp [List.length_take, Nat.min_comm]
  · intro seq p hp
    exact ((splitseqLoop_spec 45 (by omega) seq [] [] (by simp) (by simp)).1) p hp

/-- Claim C9: graph discovery returns, in the fixed order of the 8-entry
GRAPHS list, exactly the triples whose constructed path
base_dir/Images/filename exists, with the filename rewritten to that full
path; missing files are merely filtered out. -/
theorem fastqc_c9 (px : String → Bool) (dir : String) :
    get_fastqc_graphs px dir =
        (GRAPHS.filter (fun t => px (pathJoin (pathJoin dir "Images") t.1))).map
          (fun t => (pathJoin (pathJoin dir "Images") t.1, t.2.1, t.2.2)) ∧
      GRAPHS.length = 8 :=
  ⟨graphsLoop_eq px dir GRAPHS, rfl⟩

/-- Claim C10: `_splitseq` is lossless: it space-joins the chunk list, the
chunks concatenate back to the original sequence (no character dropped,
duplicated or reordered), and every chunk is at most 45 characters. -/
theorem fastqc_c10 (seq : List Char) :
    splitseq seq = List.intercalate [' '] (splitseqPieces 45 seq) ∧
      (splitseqPieces 45 seq).flatten = seq ∧
      ∀ p ∈ splitseqPieces 45 seq, p.length ≤ 45 := by
  have h := splitseqLoop_spec 45 (by omega) seq [] [] (by simp) (by simp)
  exact ⟨rfl, by simpa [splitseqPieces] using h.2, by
    simpa [splitseqPieces] using h.1⟩
